import Mathlib

/-!
Verification of the env-file core of `create-preset-env` (src/util.ts):
the line parser `parseEnvFileContent`, the reconciler/serializer
`generateEnvContent`, and the config normalizer `processRawConfigs` /
`transformEnvVariables`, shallowly embedded over Lean strings
(a Lean `String` models a JavaScript string; indices are code points).
-/

set_option maxHeartbeats 2000000

namespace CreatePresetEnv

/-! ## JavaScript string primitives used by the source -/

/-- JavaScript `String.prototype.split(/\r?\n/)`: split at each `\r\n` or
lone `\n`; a `\r` not followed by `\n` is ordinary content. -/
def splitLinesAux : List Char → List Char → List String
  | [], acc => [⟨acc.reverse⟩]
  | '\r' :: '\n' :: rest, acc => ⟨acc.reverse⟩ :: splitLinesAux rest []
  | '\n' :: rest, acc => ⟨acc.reverse⟩ :: splitLinesAux rest []
  | c :: rest, acc => splitLinesAux rest (c :: acc)

def splitLines (s : String) : List String :=
  splitLinesAux s.data []

/-- JavaScript `String.prototype.split("\n")`. -/
def splitOnNlAux : List Char → List Char → List String
  | [], acc => [⟨acc.reverse⟩]
  | c :: rest, acc =>
    if c = '\n' then ⟨acc.reverse⟩ :: splitOnNlAux rest []
    else splitOnNlAux rest (c :: acc)

def splitOnNl (s : String) : List String :=
  splitOnNlAux s.data []

/-- Whitespace recognised by JavaScript `String.prototype.trim`
(ASCII whitespace plus NBSP, line/paragraph separator and BOM). -/
def isJsWhitespace (c : Char) : Bool :=
  c = ' ' || c = '\t' || c = '\n' || c = '\r' ||
  c = Char.ofNat 11 || c = Char.ofNat 12 ||
  c = Char.ofNat 0xA0 || c = Char.ofNat 0x2028 ||
  c = Char.ofNat 0x2029 || c = Char.ofNat 0xFEFF

/-- `!line.trim()` in the source: the line is empty after trimming. -/
def isBlank (line : String) : Bool :=
  line.data.all isJsWhitespace

/-- `line.startsWith("# ")` in the source. -/
def startsWithHash (line : String) : Bool :=
  match line.data with
  | c1 :: c2 :: _ => c1 == '#' && c2 == ' '
  | _ => false

/-- `line.substring(n)` for a non-negative literal `n`. -/
def dropChars (n : Nat) (s : String) : String :=
  ⟨s.data.drop n⟩

/-- Index of the first occurrence of `c`, if any. -/
def jsIndexOfAux (c : Char) : List Char → Option Nat
  | [] => none
  | d :: rest => if d = c then some 0 else (jsIndexOfAux c rest).map (· + 1)

/-- JavaScript `String.prototype.indexOf` for a one-character needle:
the index of the first occurrence, or `-1`. -/
def jsIndexOf (s : String) (c : Char) : Int :=
  match jsIndexOfAux c s.data with
  | some i => (i : Int)
  | none => -1

/-- JavaScript `s.substring(0, e)`: a negative `e` is clamped to `0`
(and then, `start > end`, the bounds swap, giving the empty string). -/
def jsSubstringTo (s : String) (e : Int) : String :=
  ⟨s.data.take e.toNat⟩

/-- JavaScript `s.substring(b)` where `b` may be negative (clamped to `0`). -/
def jsSubstringFrom (s : String) (b : Int) : String :=
  ⟨s.data.drop b.toNat⟩

/-- JavaScript `Array.prototype.join("\n")`. -/
def joinWithNewline : List String → String
  | [] => ""
  | [l] => l
  | l :: l2 :: ls => l ++ "\n" ++ joinWithNewline (l2 :: ls)

/-! ## Model of `JSON.parse` on a string literal and `JSON.stringify`
of a string, used by the source for quoting and unquoting values -/

def hexVal (c : Char) : Option Nat :=
  if '0' ≤ c ∧ c ≤ '9' then some (c.toNat - '0'.toNat)
  else if 'a' ≤ c ∧ c ≤ 'f' then some (c.toNat - 'a'.toNat + 10)
  else if 'A' ≤ c ∧ c ≤ 'F' then some (c.toNat - 'A'.toNat + 10)
  else none

def hex4 (a b c d : Char) : Option Nat :=
  match hexVal a, hexVal b, hexVal c, hexVal d with
  | some x, some y, some z, some w => some (((x * 16 + y) * 16 + z) * 16 + w)
  | _, _, _, _ => none

def isJsonWs (c : Char) : Bool :=
  c = ' ' || c = '\t' || c = '\n' || c = '\r'

/-- Body of a JSON string after the opening quote: returns the decoded
characters and the input remaining after the closing quote.  A `\uXXXX`
escape decodes to the code point `XXXX`; an escape in the surrogate range
(the encoding JSON uses for astral code points, which a Lean `Char` list
cannot hold one half of) is modelled as a parse failure.  Nothing in this
repository produces such escapes. -/
def jsonStringBody : List Char → Option (List Char × List Char)
  | [] => none
  | '"' :: rest => some ([], rest)
  | '\\' :: '"' :: rest => (jsonStringBody rest).map fun p => ('"' :: p.1, p.2)
  | '\\' :: '\\' :: rest => (jsonStringBody rest).map fun p => ('\\' :: p.1, p.2)
  | '\\' :: '/' :: rest => (jsonStringBody rest).map fun p => ('/' :: p.1, p.2)
  | '\\' :: 'b' :: rest => (jsonStringBody rest).map fun p => (Char.ofNat 8 :: p.1, p.2)
  | '\\' :: 'f' :: rest => (jsonStringBody rest).map fun p => (Char.ofNat 12 :: p.1, p.2)
  | '\\' :: 'n' :: rest => (jsonStringBody rest).map fun p => ('\n' :: p.1, p.2)
  | '\\' :: 'r' :: rest => (jsonStringBody rest).map fun p => ('\r' :: p.1, p.2)
  | '\\' :: 't' :: rest => (jsonStringBody rest).map fun p => ('\t' :: p.1, p.2)
  | '\\' :: 'u' :: a :: b :: c :: d :: rest =>
    (match hex4 a b c d with
     | some n =>
       if n < 0xD800 ∨ 0xDFFF < n then
         (jsonStringBody rest).map fun p => (Char.ofNat n :: p.1, p.2)
       else none
     | none => none)
  | '\\' :: _ => none
  | c :: rest =>
    if c.toNat < 32 then none
    else (jsonStringBody rest).map fun p => (c :: p.1, p.2)

/-- `JSON.parse` restricted to inputs denoting a JSON string literal
(the only shape the source ever feeds it: text wrapped in quotes). -/
def jsonParseString (s : String) : Option String :=
  match s.data.dropWhile isJsonWs with
  | '"' :: rest =>
    match jsonStringBody rest with
    | some (decoded, remaining) =>
      if remaining.all isJsonWs then some ⟨decoded⟩ else none
    | none => none
  | _ => none

def hexDigit (n : Nat) : Char :=
  if n < 10 then Char.ofNat ('0'.toNat + n) else Char.ofNat ('a'.toNat + n - 10)

/-- Escaping of one character inside `JSON.stringify` of a string. -/
def jsonEscapeChar (c : Char) : List Char :=
  if c = '"' then ['\\', '"']
  else if c = '\\' then ['\\', '\\']
  else if c = '\n' then ['\\', 'n']
  else if c = '\r' then ['\\', 'r']
  else if c = '\t' then ['\\', 't']
  else if c.toNat = 8 then ['\\', 'b']
  else if c.toNat = 12 then ['\\', 'f']
  else if c.toNat < 32 then
    ['\\', 'u', '0', '0', hexDigit (c.toNat / 16), hexDigit (c.toNat % 16)]
  else [c]

/-- `JSON.stringify` applied to a string value. -/
def jsonStringify (s : String) : String :=
  ⟨'"' :: (s.data.flatMap jsonEscapeChar ++ ['"'])⟩

/-! ## Data model (util.ts) -/

structure EnvVariable where
  key : String
  value : String
  description : Option (List String) := none
deriving Repr, DecidableEq

inductive ParsedEnvItem where
  /-- An opaque passthrough line (a plain string in the source). -/
  | raw (line : String)
  /-- A structured variable entry. -/
  | var (v : EnvVariable)
deriving Repr, DecidableEq

structure EnvConfig where
  target : String
  overrideDescription : Bool
  /-- The `variables` field of the source (`variables` is reserved in Lean). -/
  vars : List EnvVariable
deriving Repr, DecidableEq

/-! ## Line parser (`parseEnvFileContent`) -/

/-- `KEY_REGEXP = /^[a-zA-Z_]+[a-zA-Z0-9_]*$/` with the `!!key` guard:
nonempty, first character a letter or underscore, all characters
letters, digits or underscore. -/
def isValidKey (key : String) : Bool :=
  match key.data with
  | [] => false
  | c :: rest =>
    (c.isAlpha || c = '_') && rest.all (fun d => d.isAlpha || d.isDigit || d = '_')

/-- `line.substring(0, line.indexOf("="))`. -/
def lineKey (line : String) : String :=
  jsSubstringTo line (jsIndexOf line '=')

/-- `line.substring(line.indexOf("=") + 1)`. -/
def lineRawValue (line : String) : String :=
  jsSubstringFrom line (jsIndexOf line '=' + 1)

/-- `value.length >= 2 && value.startsWith('"') && value.endsWith('"')`. -/
def looksQuoted (value : String) : Bool :=
  decide (2 ≤ value.length) && value.data.head? == some '"'
    && value.data.getLast? == some '"'

/-- The `try { value = JSON.parse(value) } catch { }` step. -/
def decodeValue (value : String) : String :=
  if looksQuoted value then
    match jsonParseString value with
    | some decoded => decoded
    | none => value
  else value

/-- One iteration of the `for (const line of lines)` loop, acting on the
state `(result, commentBuffer)`. -/
def parseLine (st : List ParsedEnvItem × List String) (line : String) :
    List ParsedEnvItem × List String :=
  if isBlank line then st
  else if startsWithHash line then (st.1, st.2 ++ [dropChars 2 line])
  else
    let key := lineKey line
    let value := lineRawValue line
    if isValidKey key then
      (st.1 ++ [.var { key := key, value := decodeValue value,
                       description := if st.2.isEmpty then none else some st.2 }], [])
    else
      (st.1 ++ st.2.map (fun comment => .raw ("# " ++ comment)) ++ [.raw line], [])

def parseEnvFileContent (fileContent : String) : List ParsedEnvItem :=
  let st := (splitLines fileContent).foldl parseLine ([], [])
  st.1 ++ st.2.map (fun comment => .raw ("# " ++ comment))

/-! ## Reconciler/serializer (`generateEnvContent`) -/

/-- `new Map(envConfig.variables.map(v => [v.key, v])).get(key)`:
on duplicate keys the last entry wins. -/
def mapLookup (vars : List EnvVariable) (key : String) : Option EnvVariable :=
  (vars.filter (fun v => v.key == key)).getLast?

/-- The body of the `currentEnv.map` closure: possibly replace the
description of an existing variable entry by the tail-merge rule. -/
def updateItem (envConfig : EnvConfig) (item : ParsedEnvItem) : ParsedEnvItem :=
  match item with
  | .raw s => .raw s
  | .var v =>
    match mapLookup envConfig.vars v.key with
    | some configVariable =>
      -- `configVariable.description` is truthy exactly when present
      -- (a JavaScript array, even empty, is truthy).
      if envConfig.overrideDescription && configVariable.description.isSome then
        let newDesc := configVariable.description.getD []
        let currentDesc := v.description.getD []
        let finalDesc :=
          if newDesc.length < currentDesc.length then
            currentDesc.take (currentDesc.length - newDesc.length) ++ newDesc
          else newDesc
        .var { v with description := some finalDesc }
      else .var v
    | none => .var v

/-- The keys of the variable entries among `currentEnv` (`currentEnvKeys`). -/
def currentKeys (currentEnv : List ParsedEnvItem) : List String :=
  currentEnv.filterMap fun item =>
    match item with
    | .raw _ => none
    | .var v => some v.key

/-- The config variables pushed by the `forEach` loop: those whose key is
absent from `currentEnv`, in config order. -/
def appendedVariables (envConfig : EnvConfig) (currentEnv : List ParsedEnvItem) :
    List EnvVariable :=
  envConfig.vars.filter (fun v => !(currentKeys currentEnv).contains v.key)

/-- The `updatedEnv` array right before serialization. -/
def updatedEnv (envConfig : EnvConfig) (currentEnv : List ParsedEnvItem) :
    List ParsedEnvItem :=
  currentEnv.map (updateItem envConfig)
    ++ (appendedVariables envConfig currentEnv).map .var

/-- The regular-expression test `/"|\n/.test(item.value)`. -/
def needsQuoting (value : String) : Bool :=
  value.data.any (fun c => c == '"' || c == '\n')

/-- The serialized value text: the conditional
`/"|\n/.test(item.value) ? JSON.stringify(item.value) : item.value`. -/
def valText (v : EnvVariable) : String :=
  if needsQuoting v.value then jsonStringify v.value else v.value

/-- Serialization of one item inside the final `.map`. -/
def renderItem (item : ParsedEnvItem) : String :=
  match item with
  | .raw s => s
  | .var v =>
    let descriptionText :=
      joinWithNewline ((v.description.getD []).map (fun line => "# " ++ line))
    (if descriptionText = "" then "" else descriptionText ++ "\n")
      ++ v.key ++ "=" ++ valText v

def generateEnvContent (envConfig : EnvConfig) (currentEnv : List ParsedEnvItem) :
    String :=
  joinWithNewline ((updatedEnv envConfig currentEnv).map renderItem) ++ "\n"

/-! ## Derived notions used to state the claims -/

/-- A string free of raw line breaks: it stays one line under `splitLines`. -/
def lineSafe (l : String) : Bool :=
  l.data.all fun c => !(c == '\n') && !(c == '\r')

/-- The physical lines one variable entry serializes to: one `# `-prefixed
line per description line, then the `key=value` line. -/
def lineListOf (v : EnvVariable) : List String :=
  (v.description.getD []).map (fun line => "# " ++ line) ++ [v.key ++ "=" ++ valText v]

/-- The item `parseEnvFileContent` recovers from the serialized form of a
variable entry: same key and value, the description normalized (an empty
or absent description reads back as absent). -/
def parsedOf (v : EnvVariable) : ParsedEnvItem :=
  .var { key := v.key, value := v.value
         description :=
           if (v.description.getD []).isEmpty then none
           else some (v.description.getD []) }

/-- Serialization of one item as the spec words it: the rendered lines are
the `# `-prefixed description lines followed by `<key>=<value>`, joined
with `"\n"`, where the value is JSON-quoted exactly when it contains a
double quote or a newline character. -/
def specRenderItem : ParsedEnvItem → String
  | .raw s => s
  | .var v =>
    let valueText :=
      if v.value.data.contains '"' || v.value.data.contains '\n' then
        jsonStringify v.value
      else v.value
    joinWithNewline
      ((v.description.getD []).map (fun line => "# " ++ line)
        ++ [v.key ++ "=" ++ valueText])

/-! ## Config normalizer (`processRawConfigs` / `transformEnvVariables`)

Raw configs come from JSON files or JavaScript modules, so variable
values are modelled as the JavaScript values the source can meet at
runtime: strings, numbers, booleans, or `{value, description}` objects. -/

/-- A bare JavaScript scalar value.  Numbers are modelled as integers
(the stringification the claims exercise). -/
inductive JsScalar where
  | str (s : String)
  | num (n : Int)
  | bool (b : Bool)
deriving Repr, DecidableEq

/-- JavaScript `String(x)` on a scalar. -/
def JsScalar.toStringJs : JsScalar → String
  | .str s => s
  | .num n => toString n
  | .bool b => if b then "true" else "false"

/-- A value inside a raw `variables` mapping: a bare scalar or an object
`{value, description?}` (the `RawEnvVariableObject` shape, with a string
description). -/
inductive RawVarValue where
  | scalar (s : JsScalar)
  | obj (value : JsScalar) (description : Option String)
deriving Repr, DecidableEq

/-- One entry of the list form of `variables`
(`{ key, value, description?: string }`).  The union's other member, a
ready-made `EnvVariable` whose `description` is already a `string[]`
(which `transformEnvVariables` returns unsplit), is not modelled here;
where an already-split description matters, the `EnvVariable` is built
directly. -/
structure RawArrayVar where
  key : String
  value : JsScalar
  description : Option String := none
deriving Repr, DecidableEq

/-- The `DefineEnvVariables` union: a key→value mapping (a JavaScript
object, modelled as an insertion-ordered association list) or a list of
entries. -/
inductive DefineEnvVariables where
  | record (entries : List (String × RawVarValue))
  | array (entries : List RawArrayVar)
deriving Repr, DecidableEq

/-- The `RawEnvConfig` shape.  `none` models an absent property. -/
structure RawEnvConfig where
  target : Option String := none
  overrideDescription : Option Bool := none
  /-- The `variables` field of the source (`variables` is reserved in Lean). -/
  vars : Option DefineEnvVariables := none
deriving Repr, DecidableEq

/-- JavaScript object property assignment `m[k] = v`: an existing key
keeps its position and gets the new value, a new key is appended. -/
def recordSet (m : List (String × RawVarValue)) (k : String) (v : RawVarValue) :
    List (String × RawVarValue) :=
  if m.any (fun p => p.1 == k) then
    m.map (fun p => if p.1 == k then (k, v) else p)
  else m ++ [(k, v)]

/-- JavaScript object spread `{...a, ...b}` at the key level. -/
def recordMerge (a b : List (String × RawVarValue)) :
    List (String × RawVarValue) :=
  b.foldl (fun acc p => recordSet acc p.1 p.2) a

/-- `varsToMerge`: the list form is reduced into a mapping via
`acc[key] = description ? { value, description } : value` (an empty
string description is falsy, so the bare value is stored); the mapping
form is used as is. -/
def foldVariables : DefineEnvVariables → List (String × RawVarValue)
  | .record entries => entries
  | .array entries =>
    entries.foldl
      (fun acc v =>
        recordSet acc v.key
          (match v.description with
           | some d => if d = "" then .scalar v.value else .obj v.value (some d)
           | none => .scalar v.value))
      []

/-- The accumulating `mergedConfig` object. -/
structure MergedConfig where
  target : Option String := none
  overrideDescription : Option Bool := none
  /-- The merged `variables` mapping (`variables` is reserved in Lean). -/
  vars : Option (List (String × RawVarValue)) := none
deriving Repr, DecidableEq

/-- One iteration of the merge loop: `Object.assign(mergedConfig, rest)`
(a present field overwrites), then, `if (variables)`, the key-level merge
of the variables mapping. -/
def mergeStep (acc : MergedConfig) (config : RawEnvConfig) : MergedConfig :=
  { target := match config.target with
      | some t => some t
      | none => acc.target
    overrideDescription := match config.overrideDescription with
      | some b => some b
      | none => acc.overrideDescription
    vars := match config.vars with
      | some vs => some (recordMerge (acc.vars.getD []) (foldVariables vs))
      | none => acc.vars }

def mergeConfigs (configs : List RawEnvConfig) : MergedConfig :=
  configs.foldl mergeStep {}

/-- `transformEnvVariables`.  In the mapping branch a non-string bare
scalar reaches `String(value.value)`, and `.value` of a number or a
boolean is `undefined`, so the produced value is the string
`"undefined"`; `value.description` is likewise `undefined` (falsy). -/
def transformEnvVariables : DefineEnvVariables → List EnvVariable
  | .array entries =>
    entries.map fun v =>
      { key := v.key
        value := v.value.toStringJs
        description := v.description.map (fun d => splitOnNl d) }
  | .record entries =>
    entries.map fun p =>
      match p.2 with
      | .scalar (.str s) => { key := p.1, value := s }
      | .scalar _ => { key := p.1, value := "undefined" }
      | .obj v d =>
        { key := p.1
          value := v.toStringJs
          description := match d with
            | some s => if s = "" then none else some (splitOnNl s)
            | none => none }

/-- Node's `path.resolve(cwd, target)`, modelled for the shapes the
claims use: an absolute `target` is returned as is, otherwise it is
joined to `cwd` (no `.`/`..` normalization). -/
def pathResolve (cwd target : String) : String :=
  if target.data.head? == some '/' then target else cwd ++ "/" ++ target

/-- `processRawConfigs`: empty input, a falsy merged `target` (absent or
the empty string) or an absent merged `variables` yield no result. -/
def processRawConfigs (configs : List RawEnvConfig) (cwd : String) :
    Option EnvConfig :=
  if configs.isEmpty then none
  else
    let envConfig := mergeConfigs configs
    match envConfig.target with
    | none => none
    | some t =>
      if t = "" then none
      else
        match envConfig.vars with
        | none => none
        | some vs =>
          some { target := pathResolve cwd t
                 overrideDescription := envConfig.overrideDescription.getD false
                 vars := transformEnvVariables (.record vs) }

/-! ## General lemmas about the string primitives -/

theorem stringAppend_data (a b : String) : (a ++ b).data = a.data ++ b.data := rfl

theorem string_ext {a b : String} (h : a.data = b.data) : a = b :=
  congrArg String.mk h

theorem joinWithNewline_cons (l : String) (ls : List String) (h : ls ≠ []) :
    joinWithNewline (l :: ls) = l ++ "\n" ++ joinWithNewline ls := by
  cases ls with
  | nil => exact absurd rfl h
  | cons a as => rfl

theorem joinWithNewline_append (xs ys : List String) (hx : xs ≠ []) (hy : ys ≠ []) :
    joinWithNewline (xs ++ ys) = joinWithNewline xs ++ "\n" ++ joinWithNewline ys := by
  induction xs with
  | nil => exact absurd rfl hx
  | cons a as ih =>
    cases as with
    | nil =>
      cases ys with
      | nil => exact absurd rfl hy
      | cons b bs =>
        simpa using joinWithNewline_cons a (b :: bs) (by simp)
    | cons a2 as2 =>
      rw [List.cons_append,
        joinWithNewline_cons a ((a2 :: as2) ++ ys) (by simp),
        joinWithNewline_cons a (a2 :: as2) (by simp),
        ih (by simp)]
      apply string_ext
      simp [stringAppend_data]

theorem joinWithNewline_flatten (xss : List (List String))
    (h : ∀ xs ∈ xss, xs ≠ []) :
    joinWithNewline (xss.map joinWithNewline) = joinWithNewline xss.flatten := by
  induction xss with
  | nil => rfl
  | cons xs rest ih =>
    cases rest with
    | nil => simp [joinWithNewline]
    | cons ys rest2 =>
      have hxs : xs ≠ [] := h xs (by simp)
      have hys : ys ≠ [] := h ys (by simp)
      have hflat : (ys :: rest2).flatten ≠ [] := by
        cases ys with
        | nil => exact absurd rfl hys
        | cons y ys2 => simp
      calc joinWithNewline ((xs :: ys :: rest2).map joinWithNewline)
          = joinWithNewline xs ++ "\n"
              ++ joinWithNewline ((ys :: rest2).map joinWithNewline) := by
            rw [List.map_cons]
            exact joinWithNewline_cons _ _ (by simp)
        _ = joinWithNewline xs ++ "\n" ++ joinWithNewline (ys :: rest2).flatten := by
            rw [ih (fun zs hz => h zs (by simp [hz]))]
        _ = joinWithNewline (xs ++ (ys :: rest2).flatten) := by
            rw [joinWithNewline_append xs _ hxs hflat]
        _ = joinWithNewline (xs :: ys :: rest2).flatten := by
            simp

theorem lineSafe_mem {l : String} (h : lineSafe l = true) {c : Char}
    (hc : c ∈ l.data) : c ≠ '\n' ∧ c ≠ '\r' := by
  simp only [lineSafe, List.all_eq_true] at h
  simpa using h c hc

theorem splitLinesAux_step (c : Char) (rest acc : List Char)
    (h1 : c ≠ '\n') (h2 : c ≠ '\r') :
    splitLinesAux (c :: rest) acc = splitLinesAux rest (c :: acc) := by
  rw [splitLinesAux.eq_def]
  split <;> simp_all

theorem splitLinesAux_safe (cs : List Char) (acc : List Char)
    (h : ∀ c ∈ cs, c ≠ '\n' ∧ c ≠ '\r') :
    splitLinesAux cs acc = [⟨acc.reverse ++ cs⟩] := by
  induction cs generalizing acc with
  | nil => simp [splitLinesAux]
  | cons c rest ih =>
    obtain ⟨h1, h2⟩ := h c (by simp)
    rw [splitLinesAux_step c rest acc h1 h2,
      ih (c :: acc) (fun d hd => h d (by simp [hd]))]
    simp

theorem splitLinesAux_break (cs rest acc : List Char)
    (h : ∀ c ∈ cs, c ≠ '\n' ∧ c ≠ '\r') :
    splitLinesAux (cs ++ '\n' :: rest) acc
      = ⟨acc.reverse ++ cs⟩ :: splitLinesAux rest [] := by
  induction cs generalizing acc with
  | nil => simp [splitLinesAux]
  | cons c cs2 ih =>
    obtain ⟨h1, h2⟩ := h c (by simp)
    rw [List.cons_append, splitLinesAux_step c (cs2 ++ '\n' :: rest) acc h1 h2,
      ih (c :: acc) (fun d hd => h d (by simp [hd]))]
    simp

theorem splitLines_join (ls : List String) (h0 : ls ≠ [])
    (hsafe : ∀ l ∈ ls, lineSafe l = true) :
    splitLines (joinWithNewline ls) = ls := by
  induction ls with
  | nil => exact absurd rfl h0
  | cons a as ih =>
    cases as with
    | nil =>
      show splitLinesAux a.data [] = [a]
      rw [splitLinesAux_safe a.data []
        (fun c hc => lineSafe_mem (hsafe a (by simp)) hc)]
      simp
    | cons b bs =>
      rw [joinWithNewline_cons a (b :: bs) (by simp)]
      have hdata : ((a ++ "\n") ++ joinWithNewline (b :: bs)).data
          = a.data ++ '\n' :: (joinWithNewline (b :: bs)).data := by
        simp [stringAppend_data]
      show splitLinesAux ((a ++ "\n") ++ joinWithNewline (b :: bs)).data [] = a :: b :: bs
      rw [hdata, splitLinesAux_break a.data _ []
        (fun c hc => lineSafe_mem (hsafe a (by simp)) hc)]
      have hrest : splitLinesAux (joinWithNewline (b :: bs)).data [] = b :: bs :=
        ih (by simp) (fun l hl => hsafe l (by simp [hl]))
      rw [hrest]
      simp

/-! ## Lemmas about key characters -/

theorem keyHead_not_ws {c : Char} (h : (c.isAlpha || c = '_') = true) :
    isJsWhitespace c = false := by
  by_contra hw
  have hw2 : isJsWhitespace c = true := by
    cases hws : isJsWhitespace c
    · exact absurd hws hw
    · rfl
  simp only [isJsWhitespace, Bool.or_eq_true, decide_eq_true_eq] at hw2
  rcases hw2 with (((((((((h2|h2)|h2)|h2)|h2)|h2)|h2)|h2)|h2)|h2) <;>
    (subst h2; exact absurd h (by decide))

theorem keyHead_ne {c : Char} (h : (c.isAlpha || c = '_') = true) :
    c ≠ '#' ∧ c ≠ '=' ∧ c ≠ '\n' ∧ c ≠ '\r' := by
  refine ⟨?_, ?_, ?_, ?_⟩ <;> (intro he; subst he; exact absurd h (by decide))

theorem keyChar_ne {c : Char} (h : (c.isAlpha || c.isDigit || c = '_') = true) :
    c ≠ '=' ∧ c ≠ '\n' ∧ c ≠ '\r' := by
  refine ⟨?_, ?_, ?_⟩ <;> (intro he; subst he; exact absurd h (by decide))

theorem isValidKey_data {k : String} (h : isValidKey k = true) :
    ∃ c rest, k.data = c :: rest ∧ (c.isAlpha || c = '_') = true ∧
      ∀ d ∈ rest, (d.isAlpha || d.isDigit || d = '_') = true := by
  rcases hk : k.data with _ | ⟨c, rest⟩
  · rw [isValidKey, hk] at h
    exact absurd h (by decide)
  · rw [isValidKey, hk] at h
    simp only [Bool.and_eq_true, List.all_eq_true] at h
    exact ⟨c, rest, rfl, h.1, h.2⟩

theorem isValidKey_chars {k : String} (h : isValidKey k = true) :
    ∀ c ∈ k.data, c ≠ '=' ∧ c ≠ '\n' ∧ c ≠ '\r' := by
  obtain ⟨c, rest, hk, hc, hrest⟩ := isValidKey_data h
  intro d hd
  rw [hk] at hd
  rcases List.mem_cons.mp hd with h1 | h1
  · subst h1
    exact (keyHead_ne hc).2
  · exact keyChar_ne (hrest d h1)

theorem isValidKey_lineSafe {k : String} (h : isValidKey k = true) :
    lineSafe k = true := by
  simp only [lineSafe, List.all_eq_true]
  intro c hc
  obtain ⟨-, h2, h3⟩ := isValidKey_chars h c hc
  simp [h2, h3]

/-! ## Lemmas about `jsIndexOf` and line splitting -/

theorem jsIndexOfAux_none {c : Char} {l : List Char} (h : ∀ d ∈ l, d ≠ c) :
    jsIndexOfAux c l = none := by
  induction l with
  | nil => rfl
  | cons d rest ih =>
    have hd : d ≠ c := h d (by simp)
    simp [jsIndexOfAux, hd, ih (fun e he => h e (by simp [he]))]

theorem jsIndexOfAux_append {c : Char} {xs ys : List Char}
    (h : ∀ d ∈ xs, d ≠ c) :
    jsIndexOfAux c (xs ++ c :: ys) = some xs.length := by
  induction xs with
  | nil => simp [jsIndexOfAux]
  | cons d rest ih =>
    have hd : d ≠ c := h d (by simp)
    simp [jsIndexOfAux, hd, ih (fun e he => h e (by simp [he]))]

theorem jsIndexOfAux_decomp {c : Char} {l : List Char} {i : ℕ}
    (h : jsIndexOfAux c l = some i) :
    l = l.take i ++ c :: l.drop (i + 1) := by
  induction l generalizing i with
  | nil => simp [jsIndexOfAux] at h
  | cons d rest ih =>
    by_cases hd : d = c
    · rw [jsIndexOfAux, if_pos hd] at h
      obtain rfl : (0 : ℕ) = i := Option.some.inj h
      simp [hd]
    · rw [jsIndexOfAux, if_neg hd] at h
      rw [Option.map_eq_some'] at h
      obtain ⟨j, hj, hji⟩ := h
      subst hji
      simpa using congrArg (d :: ·) (ih hj)

theorem lineKey_append (k v : String) (hk : isValidKey k = true) :
    lineKey (k ++ "=" ++ v) = k ∧ lineRawValue (k ++ "=" ++ v) = v := by
  have hne : ∀ d ∈ k.data, d ≠ '=' := fun d hd => (isValidKey_chars hk d hd).1
  have hdata : (k ++ "=" ++ v).data = k.data ++ '=' :: v.data := by
    simp [stringAppend_data]
  have hidx : jsIndexOf (k ++ "=" ++ v) '=' = (k.data.length : ℤ) := by
    rw [jsIndexOf, hdata, jsIndexOfAux_append hne]
  constructor
  · apply string_ext
    rw [lineKey, jsSubstringTo, hidx]
    show ((k ++ "=" ++ v).data.take (Int.toNat (k.data.length : ℤ))) = k.data
    rw [Int.toNat_natCast, hdata, List.take_left]
  · apply string_ext
    rw [lineRawValue, jsSubstringFrom, hidx]
    show ((k ++ "=" ++ v).data.drop (Int.toNat ((k.data.length : ℤ) + 1))) = v.data
    have ht : Int.toNat ((k.data.length : ℤ) + 1) = k.data.length + 1 := by omega
    rw [ht, hdata]
    simpa using @List.drop_append Char k.data ('=' :: v.data) 1

theorem line_decomp {l : String} (h : isValidKey (lineKey l) = true) :
    l = lineKey l ++ "=" ++ lineRawValue l := by
  cases hidx : jsIndexOfAux '=' l.data with
  | none =>
    exfalso
    have hkey : lineKey l = ⟨[]⟩ := by
      simp [lineKey, jsIndexOf, hidx, jsSubstringTo]
    rw [hkey] at h
    exact absurd h (by decide)
  | some i =>
    have hdecomp := jsIndexOfAux_decomp hidx
    have h1 : lineKey l = ⟨l.data.take i⟩ := by
      simp [lineKey, jsIndexOf, hidx, jsSubstringTo]
    have h2 : lineRawValue l = ⟨l.data.drop (i + 1)⟩ := by
      have ht : Int.toNat ((i : ℤ) + 1) = i + 1 := by omega
      simp [lineRawValue, jsIndexOf, hidx, jsSubstringFrom, ht]
    rw [h1, h2]
    apply string_ext
    rw [stringAppend_data, stringAppend_data]
    simpa using hdecomp

/-! ## Lemmas about the parser loop -/

theorem take_cons_of_take {α : Type} {n : ℕ} {xs : List α} {c : α} {t : List α}
    (h : xs.take n = c :: t) : ∃ t2, xs = c :: t2 := by
  cases xs with
  | nil => simp at h
  | cons d rest =>
    cases n with
    | zero => simp at h
    | succ m =>
      rw [List.take_succ_cons] at h
      injection h with h1 h2
      exact ⟨rest, by rw [h1]⟩

theorem validKey_line_head {l : String} (h : isValidKey (lineKey l) = true) :
    ∃ c rest, l.data = c :: rest ∧ (c.isAlpha || c = '_') = true := by
  obtain ⟨c, krest, hk, hc, -⟩ := isValidKey_data h
  have hk2 : l.data.take (jsIndexOf l '=').toNat = c :: krest := hk
  obtain ⟨rest, hrest⟩ := take_cons_of_take hk2
  exact ⟨c, rest, hrest, hc⟩

theorem validKey_not_blank {l : String} (h : isValidKey (lineKey l) = true) :
    isBlank l = false ∧ startsWithHash l = false := by
  obtain ⟨c, rest, hld, hc⟩ := validKey_line_head h
  constructor
  · rw [isBlank, hld]
    simp [keyHead_not_ws hc]
  · have hhash : c ≠ '#' := (keyHead_ne hc).1
    cases rest with
    | nil => simp [startsWithHash, hld]
    | cons c2 r2 => simp [startsWithHash, hld, hhash]

theorem parseLine_blank {l : String} (h : isBlank l = true)
    (st : List ParsedEnvItem × List String) : parseLine st l = st := by
  simp [parseLine, h]

theorem startsWithHash_data {l : String} (h : startsWithHash l = true) :
    ∃ rest, l.data = '#' :: ' ' :: rest := by
  rcases hd : l.data with _ | ⟨c1, _ | ⟨c2, r⟩⟩
  · rw [startsWithHash, hd] at h
    simp at h
  · rw [startsWithHash, hd] at h
    simp at h
  · rw [startsWithHash, hd] at h
    simp only [Bool.and_eq_true, beq_iff_eq] at h
    obtain ⟨h1, h2⟩ := h
    subst h1
    subst h2
    exact ⟨r, rfl⟩

theorem parseLine_comment {l : String} (h : startsWithHash l = true)
    (st : List ParsedEnvItem × List String) :
    parseLine st l = (st.1, st.2 ++ [dropChars 2 l]) := by
  obtain ⟨rest, hld⟩ := startsWithHash_data h
  have hb : isBlank l = false := by
    rw [isBlank, hld]
    simp [isJsWhitespace]
  simp [parseLine, hb, h]

theorem parseLine_valid {l : String} (h : isValidKey (lineKey l) = true)
    (st : List ParsedEnvItem × List String) :
    parseLine st l = (st.1 ++ [.var ⟨lineKey l, decodeValue (lineRawValue l),
      if st.2.isEmpty then none else some st.2⟩], []) := by
  obtain ⟨hb, hh⟩ := validKey_not_blank h
  simp [parseLine, hb, hh, h]

theorem parseLine_invalid {l : String} (hb : isBlank l = false)
    (hh : startsWithHash l = false) (hk : isValidKey (lineKey l) = false)
    (st : List ParsedEnvItem × List String) :
    parseLine st l
      = (st.1 ++ st.2.map (fun c => .raw ("# " ++ c)) ++ [.raw l], []) := by
  simp [parseLine, hb, hh, hk]

theorem startsWithHash_front (d : String) : startsWithHash ("# " ++ d) = true := rfl

theorem dropChars_two_prefix (d : String) : dropChars 2 ("# " ++ d) = d := rfl

theorem hash_prefix_not_blank (d : String) : isBlank ("# " ++ d) = false := by
  have : ("# " ++ d).data = '#' :: ' ' :: d.data := rfl
  rw [isBlank, this]
  simp [isJsWhitespace]

theorem foldl_parseLine_comments (ls : List String) (res : List ParsedEnvItem)
    (buf : List String)
    (h : ∀ l ∈ ls, startsWithHash l = true ∨ isBlank l = true) :
    ls.foldl parseLine (res, buf)
      = (res, buf ++ (ls.filter (fun l => !isBlank l)).map (dropChars 2)) := by
  induction ls generalizing buf with
  | nil => simp
  | cons a as ih =>
    by_cases hb : isBlank a = true
    · rw [List.foldl_cons, parseLine_blank hb,
        ih buf (fun l hl => h l (by simp [hl]))]
      simp [List.filter_cons, hb]
    · rcases h a (by simp) with ha | ha
      · have hbf : isBlank a = false := by
          cases hab : isBlank a
          · rfl
          · exact absurd hab hb
        rw [List.foldl_cons, parseLine_comment ha,
          ih _ (fun l hl => h l (by simp [hl]))]
        simp [List.filter_cons, hbf]
      · exact absurd ha hb

theorem foldl_parseLine_vars (ls : List String) (res : List ParsedEnvItem)
    (h : ∀ l ∈ ls, isValidKey (lineKey l) = true) :
    ls.foldl parseLine (res, [])
      = (res ++ ls.map
          (fun l => .var ⟨lineKey l, decodeValue (lineRawValue l), none⟩), []) := by
  induction ls generalizing res with
  | nil => simp
  | cons a as ih =>
    rw [List.foldl_cons, parseLine_valid (h a (by simp))]
    simp only [List.isEmpty_nil, if_pos]
    rw [ih _ (fun l hl => h l (by simp [hl]))]
    simp

/-! ## Lemmas about the JSON string model -/

theorem hexVal_hexDigit : ∀ d < 16, hexVal (hexDigit d) = some d := by decide

theorem hexDigit_ne : ∀ d < 16, hexDigit d ≠ '\n' ∧ hexDigit d ≠ '\r' := by decide

theorem jsonStringBody_quote (r : List Char) :
    jsonStringBody ('"' :: r) = some ([], r) := by
  rw [jsonStringBody.eq_def]
  split <;> (try simp_all) <;>
    (rename_i heq
     first
      | (subst heq
         first
          | (simp_all; done)
          | (rename_i hall; exact absurd rfl (hall _ _ _ _ _))
          | (rename_i hall; exact absurd rfl (hall _)))
      | (obtain ⟨h1, h2⟩ := heq; subst h1; subst h2; simp_all; done)
      | (exact absurd (rfl : r = r) (heq a b c d r rfl rfl rfl rfl)))

theorem jsonStringBody_escQuote (r : List Char) :
    jsonStringBody ('\\' :: '"' :: r)
      = (jsonStringBody r).map fun p => ('"' :: p.1, p.2) := by
  rw [jsonStringBody.eq_def]
  split <;> (try simp_all) <;>
    (rename_i heq
     first
      | (subst heq
         first
          | (simp_all; done)
          | (rename_i hall; exact absurd rfl (hall _ _ _ _ _))
          | (rename_i hall; exact absurd rfl (hall _)))
      | (obtain ⟨h1, h2⟩ := heq; subst h1; subst h2; simp_all; done)
      | (exact absurd (rfl : r = r) (heq a b c d r rfl rfl rfl rfl)))

theorem jsonStringBody_escBackslash (r : List Char) :
    jsonStringBody ('\\' :: '\\' :: r)
      = (jsonStringBody r).map fun p => ('\\' :: p.1, p.2) := by
  rw [jsonStringBody.eq_def]
  split <;> (try simp_all) <;>
    (rename_i heq
     first
      | (subst heq
         first
          | (simp_all; done)
          | (rename_i hall; exact absurd rfl (hall _ _ _ _ _))
          | (rename_i hall; exact absurd rfl (hall _)))
      | (obtain ⟨h1, h2⟩ := heq; subst h1; subst h2; simp_all; done)
      | (exact absurd (rfl : r = r) (heq a b c d r rfl rfl rfl rfl)))

theorem jsonStringBody_escB (r : List Char) :
    jsonStringBody ('\\' :: 'b' :: r)
      = (jsonStringBody r).map fun p => (Char.ofNat 8 :: p.1, p.2) := by
  rw [jsonStringBody.eq_def]
  split <;> (try simp_all) <;>
    (rename_i heq
     first
      | (subst heq
         first
          | (simp_all; done)
          | (rename_i hall; exact absurd rfl (hall _ _ _ _ _))
          | (rename_i hall; exact absurd rfl (hall _)))
      | (obtain ⟨h1, h2⟩ := heq; subst h1; subst h2; simp_all; done)
      | (exact absurd (rfl : r = r) (heq a b c d r rfl rfl rfl rfl)))

theorem jsonStringBody_escF (r : List Char) :
    jsonStringBody ('\\' :: 'f' :: r)
      = (jsonStringBody r).map fun p => (Char.ofNat 12 :: p.1, p.2) := by
  rw [jsonStringBody.eq_def]
  split <;> (try simp_all) <;>
    (rename_i heq
     first
      | (subst heq
         first
          | (simp_all; done)
          | (rename_i hall; exact absurd rfl (hall _ _ _ _ _))
          | (rename_i hall; exact absurd rfl (hall _)))
      | (obtain ⟨h1, h2⟩ := heq; subst h1; subst h2; simp_all; done)
      | (exact absurd (rfl : r = r) (heq a b c d r rfl rfl rfl rfl)))

theorem jsonStringBody_escN (r : List Char) :
    jsonStringBody ('\\' :: 'n' :: r)
      = (jsonStringBody r).map fun p => ('\n' :: p.1, p.2) := by
  rw [jsonStringBody.eq_def]
  split <;> (try simp_all) <;>
    (rename_i heq
     first
      | (subst heq
         first
          | (simp_all; done)
          | (rename_i hall; exact absurd rfl (hall _ _ _ _ _))
          | (rename_i hall; exact absurd rfl (hall _)))
      | (obtain ⟨h1, h2⟩ := heq; subst h1; subst h2; simp_all; done)
      | (exact absurd (rfl : r = r) (heq a b c d r rfl rfl rfl rfl)))

theorem jsonStringBody_escR (r : List Char) :
    jsonStringBody ('\\' :: 'r' :: r)
      = (jsonStringBody r).map fun p => ('\r' :: p.1, p.2) := by
  rw [jsonStringBody.eq_def]
  split <;> (try simp_all) <;>
    (rename_i heq
     first
      | (subst heq
         first
          | (simp_all; done)
          | (rename_i hall; exact absurd rfl (hall _ _ _ _ _))
          | (rename_i hall; exact absurd rfl (hall _)))
      | (obtain ⟨h1, h2⟩ := heq; subst h1; subst h2; simp_all; done)
      | (exact absurd (rfl : r = r) (heq a b c d r rfl rfl rfl rfl)))

theorem jsonStringBody_escT (r : List Char) :
    jsonStringBody ('\\' :: 't' :: r)
      = (jsonStringBody r).map fun p => ('\t' :: p.1, p.2) := by
  rw [jsonStringBody.eq_def]
  split <;> (try simp_all) <;>
    (rename_i heq
     first
      | (subst heq
         first
          | (simp_all; done)
          | (rename_i hall; exact absurd rfl (hall _ _ _ _ _))
          | (rename_i hall; exact absurd rfl (hall _)))
      | (obtain ⟨h1, h2⟩ := heq; subst h1; subst h2; simp_all; done)
      | (exact absurd (rfl : r = r) (heq a b c d r rfl rfl rfl rfl)))

theorem jsonStringBody_escU {a b c d : Char} {n : ℕ} (r : List Char)
    (hhex : hex4 a b c d = some n) (hlt : n < 55296) :
    jsonStringBody ('\\' :: 'u' :: a :: b :: c :: d :: r)
      = (jsonStringBody r).map fun p => (Char.ofNat n :: p.1, p.2) := by
  rw [jsonStringBody.eq_def]
  split <;> (try simp_all) <;>
    (rename_i heq
     first
      | (subst heq
         first
          | (simp_all; done)
          | (rename_i hall; exact absurd rfl (hall _ _ _ _ _))
          | (rename_i hall; exact absurd rfl (hall _)))
      | (obtain ⟨h1, h2⟩ := heq; subst h1; subst h2; simp_all; done)
      | (exact absurd (rfl : r = r) (heq a b c d r rfl rfl rfl rfl)))

theorem jsonStringBody_other {c : Char} (h1 : c ≠ '"') (h2 : c ≠ '\\')
    (r : List Char) :
    jsonStringBody (c :: r) = if c.toNat < 32 then none
      else (jsonStringBody r).map fun p => (c :: p.1, p.2) := by
  rw [jsonStringBody.eq_def]
  split <;> (try simp_all) <;>
    (rename_i heq
     first
      | (subst heq
         first
          | (simp_all; done)
          | (rename_i hall; exact absurd rfl (hall _ _ _ _ _))
          | (rename_i hall; exact absurd rfl (hall _)))
      | (obtain ⟨h1, h2⟩ := heq; subst h1; subst h2; simp_all; done)
      | (exact absurd (rfl : r = r) (heq a b c d r rfl rfl rfl rfl)))

theorem jsonStringBody_roundtrip (l : List Char) :
    jsonStringBody (l.flatMap jsonEscapeChar ++ ['"']) = some (l, []) := by
  induction l with
  | nil =>
    simpa using jsonStringBody_quote []
  | cons c rest ih =>
    rw [List.flatMap_cons, List.append_assoc]
    by_cases h1 : c = '"'
    · subst h1
      rw [show jsonEscapeChar '"' = ['\\', '"'] from rfl]
      simp only [List.cons_append, List.nil_append]
      rw [jsonStringBody_escQuote, ih]
      rfl
    by_cases h2 : c = '\\'
    · subst h2
      rw [show jsonEscapeChar '\\' = ['\\', '\\'] from rfl]
      simp only [List.cons_append, List.nil_append]
      rw [jsonStringBody_escBackslash, ih]
      rfl
    by_cases h3 : c = '\n'
    · subst h3
      rw [show jsonEscapeChar '\n' = ['\\', 'n'] from rfl]
      simp only [List.cons_append, List.nil_append]
      rw [jsonStringBody_escN, ih]
      rfl
    by_cases h4 : c = '\r'
    · subst h4
      rw [show jsonEscapeChar '\r' = ['\\', 'r'] from rfl]
      simp only [List.cons_append, List.nil_append]
      rw [jsonStringBody_escR, ih]
      rfl
    by_cases h5 : c = '\t'
    · subst h5
      rw [show jsonEscapeChar '\t' = ['\\', 't'] from rfl]
      simp only [List.cons_append, List.nil_append]
      rw [jsonStringBody_escT, ih]
      rfl
    by_cases h6 : c.toNat = 8
    · obtain rfl : c = Char.ofNat 8 := by rw [← Char.ofNat_toNat c, h6]
      rw [show jsonEscapeChar (Char.ofNat 8) = ['\\', 'b'] from rfl]
      simp only [List.cons_append, List.nil_append]
      rw [jsonStringBody_escB, ih]
      rfl
    by_cases h7 : c.toNat = 12
    · obtain rfl : c = Char.ofNat 12 := by rw [← Char.ofNat_toNat c, h7]
      rw [show jsonEscapeChar (Char.ofNat 12) = ['\\', 'f'] from rfl]
      simp only [List.cons_append, List.nil_append]
      rw [jsonStringBody_escF, ih]
      rfl
    by_cases h8 : c.toNat < 32
    · rw [show jsonEscapeChar c
          = ['\\', 'u', '0', '0', hexDigit (c.toNat / 16), hexDigit (c.toNat % 16)] from by
        rw [jsonEscapeChar, if_neg h1, if_neg h2, if_neg h3, if_neg h4, if_neg h5,
          if_neg h6, if_neg h7, if_pos h8]]
      simp only [List.cons_append, List.nil_append]
      have hhex : hex4 '0' '0' (hexDigit (c.toNat / 16)) (hexDigit (c.toNat % 16))
          = some (((0 * 16 + 0) * 16 + c.toNat / 16) * 16 + c.toNat % 16) := by
        rw [hex4, hexVal_hexDigit _ (by omega : c.toNat / 16 < 16),
          hexVal_hexDigit _ (by omega : c.toNat % 16 < 16)]
        rfl
      have hn : ((0 * 16 + 0) * 16 + c.toNat / 16) * 16 + c.toNat % 16 = c.toNat := by
        omega
      rw [jsonStringBody_escU _ hhex (by omega), ih, hn, Char.ofNat_toNat]
      rfl
    · rw [show jsonEscapeChar c = [c] from by
        rw [jsonEscapeChar, if_neg h1, if_neg h2, if_neg h3, if_neg h4, if_neg h5,
          if_neg h6, if_neg h7, if_neg h8]]
      simp only [List.cons_append, List.nil_append]
      rw [jsonStringBody_other h1 h2, if_neg h8, ih]
      rfl

theorem jsonParseString_stringify (s : String) :
    jsonParseString (jsonStringify s) = some s := by
  unfold jsonParseString jsonStringify
  have hdrop : (String.mk ('"' :: (s.data.flatMap jsonEscapeChar ++ ['"']))).data.dropWhile
      isJsonWs = '"' :: (s.data.flatMap jsonEscapeChar ++ ['"']) :=
    List.dropWhile_cons_of_neg (by decide)
  rw [hdrop]
  show (match jsonStringBody (s.data.flatMap jsonEscapeChar ++ ['"']) with
    | some (decoded, remaining) =>
      if remaining.all isJsonWs = true then some (String.mk decoded) else none
    | none => none) = some s
  rw [jsonStringBody_roundtrip]
  simp

theorem jsonEscapeChar_safe (c : Char) :
    ∀ d ∈ jsonEscapeChar c, d ≠ '\n' ∧ d ≠ '\r' := by
  intro d hd
  rw [jsonEscapeChar] at hd
  by_cases h1 : c = '"'
  · rw [if_pos h1] at hd
    fin_cases hd <;> exact ⟨by decide, by decide⟩
  rw [if_neg h1] at hd
  by_cases h2 : c = '\\'
  · rw [if_pos h2] at hd
    fin_cases hd <;> exact ⟨by decide, by decide⟩
  rw [if_neg h2] at hd
  by_cases h3 : c = '\n'
  · rw [if_pos h3] at hd
    fin_cases hd <;> exact ⟨by decide, by decide⟩
  rw [if_neg h3] at hd
  by_cases h4 : c = '\r'
  · rw [if_pos h4] at hd
    fin_cases hd <;> exact ⟨by decide, by decide⟩
  rw [if_neg h4] at hd
  by_cases h5 : c = '\t'
  · rw [if_pos h5] at hd
    fin_cases hd <;> exact ⟨by decide, by decide⟩
  rw [if_neg h5] at hd
  by_cases h6 : c.toNat = 8
  · rw [if_pos h6] at hd
    fin_cases hd <;> exact ⟨by decide, by decide⟩
  rw [if_neg h6] at hd
  by_cases h7 : c.toNat = 12
  · rw [if_pos h7] at hd
    fin_cases hd <;> exact ⟨by decide, by decide⟩
  rw [if_neg h7] at hd
  by_cases h8 : c.toNat < 32
  · rw [if_pos h8] at hd
    have ha := hexDigit_ne (c.toNat / 16) (by omega)
    have hb := hexDigit_ne (c.toNat % 16) (by omega)
    fin_cases hd
    · exact ⟨by decide, by decide⟩
    · exact ⟨by decide, by decide⟩
    · exact ⟨by decide, by decide⟩
    · exact ⟨by decide, by decide⟩
    · exact ha
    · exact hb
  · rw [if_neg h8] at hd
    fin_cases hd
    exact ⟨h3, h4⟩

theorem jsonStringify_lineSafe (s : String) : lineSafe (jsonStringify s) = true := by
  rw [lineSafe, List.all_eq_true]
  intro c hc
  rw [jsonStringify] at hc
  simp only [List.mem_cons, List.mem_append, List.mem_singleton,
    List.not_mem_nil, or_false] at hc
  rcases hc with rfl | hc | rfl
  · simp
  · obtain ⟨d, -, hd⟩ := List.mem_flatMap.mp hc
    obtain ⟨hn, hr⟩ := jsonEscapeChar_safe d c hd
    simp [hn, hr]
  · simp

theorem looksQuoted_stringify (s : String) : looksQuoted (jsonStringify s) = true := by
  rw [looksQuoted, jsonStringify]
  have hlen : (String.mk ('"' :: (s.data.flatMap jsonEscapeChar ++ ['"']))).length
      = (s.data.flatMap jsonEscapeChar).length + 2 := by
    simp [String.length]
  have hlast : ('"' :: (s.data.flatMap jsonEscapeChar ++ ['"'])).getLast? = some '"' := by
    rw [← List.cons_append]
    exact List.getLast?_concat _
  rw [hlen]
  simp [hlast]

theorem looksQuoted_no_quote {v : String} (h : '"' ∉ v.data) :
    looksQuoted v = false := by
  rw [looksQuoted]
  cases hd : v.data with
  | nil =>
    have : v.length = 0 := by simp [String.length, hd]
    simp [this]
  | cons c rest =>
    have hc : c ≠ '"' := fun he => h (by rw [hd, he]; simp)
    simp [hd, hc]

theorem decodeValue_stringify (s : String) :
    decodeValue (jsonStringify s) = s := by
  rw [decodeValue, if_pos (looksQuoted_stringify s), jsonParseString_stringify]

theorem decodeValue_no_quote {v : String} (h : '"' ∉ v.data) :
    decodeValue v = v := by
  rw [decodeValue, looksQuoted_no_quote h]
  simp

theorem needsQuoting_false_no_quote {s : String} (h : needsQuoting s = false) :
    '"' ∉ s.data ∧ '\n' ∉ s.data := by
  rw [needsQuoting] at h
  constructor <;> intro hmem <;>
    (rw [List.any_eq_false] at h; have := h _ hmem; simp at this)

theorem decodeValue_valText (v : EnvVariable) :
    decodeValue (valText v) = v.value := by
  rw [valText]
  cases hq : needsQuoting v.value with
  | true =>
    rw [if_pos rfl]
    exact decodeValue_stringify v.value
  | false =>
    rw [if_neg (by simp)]
    exact decodeValue_no_quote (needsQuoting_false_no_quote hq).1

/-! ## Lemmas about the serializer and the reconciler -/

theorem join_cons_ne_empty (x : String) (xs : List String) (hx : x.data ≠ []) :
    joinWithNewline (x :: xs) ≠ "" := by
  cases xs with
  | nil =>
    intro he
    simp only [joinWithNewline] at he
    exact hx (by rw [he])
  | cons y ys =>
    intro he
    have hd : (x ++ "\n" ++ joinWithNewline (y :: ys)).data = [] := by
      rw [← joinWithNewline_cons x (y :: ys) (by simp), he]
    rw [stringAppend_data, stringAppend_data] at hd
    simp at hd

theorem renderItem_eq_join (v : EnvVariable) :
    renderItem (.var v) = joinWithNewline (lineListOf v) := by
  simp only [renderItem, lineListOf]
  cases hd : v.description.getD [] with
  | nil =>
    apply string_ext
    simp [joinWithNewline, stringAppend_data]
  | cons d ds =>
    have hne := join_cons_ne_empty ("# " ++ d) (ds.map fun line => "# " ++ line)
      (by rw [stringAppend_data]; simp)
    simp only [List.map_cons] at hne ⊢
    rw [if_neg hne,
      joinWithNewline_append (("# " ++ d) :: ds.map fun line => "# " ++ line)
        [v.key ++ "=" ++ valText v] (by simp) (by simp)]
    apply string_ext
    simp [joinWithNewline, stringAppend_data]

theorem updatedEnv_nil (cfg : EnvConfig) :
    updatedEnv cfg [] = cfg.vars.map .var := by
  have hfilter : (cfg.vars.filter
      fun v => !(currentKeys ([] : List ParsedEnvItem)).contains v.key) = cfg.vars :=
    List.filter_eq_self.mpr (fun a ha => rfl)
  rw [updatedEnv, appendedVariables, hfilter]
  simp

theorem generateEnvContent_nil (cfg : EnvConfig) :
    generateEnvContent cfg []
      = joinWithNewline (cfg.vars.map fun v => renderItem (.var v)) ++ "\n" := by
  rw [generateEnvContent, updatedEnv_nil, List.map_map]
  rfl

theorem foldl_parseLine_desc (ds : List String) (res : List ParsedEnvItem)
    (buf : List String) :
    (ds.map (fun line => "# " ++ line)).foldl parseLine (res, buf) = (res, buf ++ ds) := by
  induction ds generalizing buf with
  | nil => simp
  | cons d rest ih =>
    rw [List.map_cons, List.foldl_cons, parseLine_comment (startsWithHash_front d),
      dropChars_two_prefix, ih]
    simp

theorem foldl_parseLine_group (v : EnvVariable) (res : List ParsedEnvItem)
    (hk : isValidKey v.key = true) :
    (lineListOf v).foldl parseLine (res, []) = (res ++ [parsedOf v], []) := by
  rw [lineListOf, List.foldl_append, foldl_parseLine_desc]
  have hkey := (lineKey_append v.key (valText v) hk).1
  have hval := (lineKey_append v.key (valText v) hk).2
  simp only [List.nil_append, List.foldl_cons, List.foldl_nil]
  rw [parseLine_valid (by rw [hkey]; exact hk)]
  rw [parsedOf]
  simp only [hkey, hval, decodeValue_valText]

theorem foldl_parseLine_groups (vars : List EnvVariable) (res : List ParsedEnvItem)
    (hk : ∀ v ∈ vars, isValidKey v.key = true) :
    ((vars.map lineListOf).flatten).foldl parseLine (res, [])
      = (res ++ vars.map parsedOf, []) := by
  induction vars generalizing res with
  | nil => simp
  | cons v rest ih =>
    rw [List.map_cons, List.flatten_cons, List.foldl_append,
      foldl_parseLine_group v res (hk v (by simp)),
      ih _ (fun w hw => hk w (by simp [hw]))]
    simp

theorem contains_iff {α : Type} [BEq α] [LawfulBEq α] (l : List α) (a : α) :
    l.contains a = true ↔ a ∈ l := List.elem_iff

theorem lineSafe_append (a b : String) :
    lineSafe (a ++ b) = (lineSafe a && lineSafe b) := by
  simp [lineSafe, stringAppend_data, List.all_append]

theorem lineSafe_hash_front (d : String) : lineSafe ("# " ++ d) = lineSafe d := by
  have h : lineSafe "# " = true := by decide
  rw [lineSafe_append, h, Bool.true_and]

theorem lineListOf_safe {v : EnvVariable} (hk : isValidKey v.key = true)
    (hval : '\r' ∉ v.value.data)
    (hdesc : ∀ d ∈ v.description.getD [], lineSafe d = true) :
    ∀ l ∈ lineListOf v, lineSafe l = true := by
  intro l hl
  rw [lineListOf] at hl
  rcases List.mem_append.mp hl with h | h
  · obtain ⟨d, hd, rfl⟩ := List.mem_map.mp h
    rw [lineSafe_hash_front]
    exact hdesc d hd
  · simp only [List.mem_singleton] at h
    subst h
    rw [lineSafe_append, lineSafe_append, isValidKey_lineSafe hk,
      (by decide : lineSafe "=" = true)]
    have hv : lineSafe (valText v) = true := by
      rw [valText]
      cases hq : needsQuoting v.value with
      | true =>
        rw [if_pos rfl]
        exact jsonStringify_lineSafe v.value
      | false =>
        rw [if_neg (by simp)]
        have hno := needsQuoting_false_no_quote hq
        rw [lineSafe, List.all_eq_true]
        intro c hc
        have hn : c ≠ '\n' := fun he => hno.2 (he ▸ hc)
        have hr : c ≠ '\r' := fun he => hval (he ▸ hc)
        simp [hn, hr]
    rw [hv]
    rfl

theorem parse_generate_empty (cfg : EnvConfig)
    (hk : ∀ v ∈ cfg.vars, isValidKey v.key = true)
    (hsafe : ∀ v ∈ cfg.vars, ∀ l ∈ lineListOf v, lineSafe l = true) :
    parseEnvFileContent (generateEnvContent cfg []) = cfg.vars.map parsedOf := by
  by_cases hv : cfg.vars = []
  · have h1 : generateEnvContent cfg [] = "\n" := by
      rw [generateEnvContent_nil, hv]
      rfl
    rw [h1, hv]
    decide
  · obtain ⟨v0, rest0, hv0⟩ := List.exists_cons_of_ne_nil hv
    have hflat_ne : (cfg.vars.map lineListOf).flatten ≠ [] := by
      rw [hv0, List.map_cons, List.flatten_cons, lineListOf]
      simp
    have hgen : generateEnvContent cfg []
        = joinWithNewline ((cfg.vars.map lineListOf).flatten ++ [""]) := by
      rw [generateEnvContent_nil]
      have h2 : cfg.vars.map (fun v => renderItem (.var v))
          = (cfg.vars.map lineListOf).map joinWithNewline := by
        rw [List.map_map]
        exact List.map_congr_left (fun v _ => renderItem_eq_join v)
      rw [h2, joinWithNewline_flatten _ ?hne]
      case hne =>
        intro xs hxs
        obtain ⟨v, hvm, rfl⟩ := List.mem_map.mp hxs
        rw [lineListOf]
        simp
      rw [joinWithNewline_append _ [""] hflat_ne (by simp)]
      apply string_ext
      simp [stringAppend_data, joinWithNewline]
    have hsplit : splitLines (joinWithNewline ((cfg.vars.map lineListOf).flatten ++ [""]))
        = (cfg.vars.map lineListOf).flatten ++ [""] := by
      apply splitLines_join _ (by simp)
      intro l hl
      rcases List.mem_append.mp hl with h | h
      · obtain ⟨ls, hls, hl2⟩ := List.mem_flatten.mp h
        obtain ⟨v, hvm, rfl⟩ := List.mem_map.mp hls
        exact hsafe v hvm l hl2
      · simp only [List.mem_singleton] at h
        subst h
        rfl
    rw [hgen]
    simp only [parseEnvFileContent]
    rw [hsplit, List.foldl_append, foldl_parseLine_groups _ _ hk,
      List.foldl_cons, parseLine_blank (show isBlank "" = true from rfl), List.foldl_nil]
    simp

theorem mapLookup_self {vars : List EnvVariable} {v : EnvVariable}
    (hv : v ∈ vars) (hnd : (vars.map EnvVariable.key).Nodup) :
    mapLookup vars v.key = some v := by
  induction vars with
  | nil => simp at hv
  | cons a rest ih =>
    rw [List.map_cons, List.nodup_cons] at hnd
    rcases List.mem_cons.mp hv with rfl | hv2
    · have hrest : rest.filter (fun w => w.key == v.key) = [] := by
        rw [List.filter_eq_nil_iff]
        intro w hw hbeq
        have heq : w.key = v.key := by simpa using hbeq
        exact hnd.1 (heq ▸ List.mem_map_of_mem EnvVariable.key hw)
      rw [mapLookup, List.filter_cons, if_pos (by simp), hrest]
      rfl
    · have hne : (a.key == v.key) = false := by
        simp only [beq_eq_false_iff_ne, ne_eq]
        intro he
        exact hnd.1 (he ▸ List.mem_map_of_mem EnvVariable.key hv2)
      rw [mapLookup, List.filter_cons, if_neg (by simp [hne])]
      exact ih hv2 hnd.2

theorem renderItem_norm (k val : String) (d : Option (List String)) :
    renderItem (.var ⟨k, val, if (d.getD []).isEmpty then none else some (d.getD [])⟩)
      = renderItem (.var ⟨k, val, d⟩) := by
  cases d with
  | none => rfl
  | some ls =>
    cases ls with
    | nil => rfl
    | cons x xs => rfl

theorem renderItem_update (cfg : EnvConfig) (v : EnvVariable)
    (hl : mapLookup cfg.vars v.key = some v) :
    renderItem (updateItem cfg (parsedOf v)) = renderItem (.var v) := by
  cases hov : cfg.overrideDescription with
  | false =>
    have h1 : updateItem cfg (parsedOf v) = parsedOf v := by
      simp [updateItem, parsedOf, hl, hov]
    rw [h1, parsedOf]
    cases v with
    | mk k val d => exact renderItem_norm k val d
  | true =>
    cases v with
    | mk k val d =>
      cases d with
      | none =>
        have h1 : updateItem cfg (parsedOf ⟨k, val, none⟩) = parsedOf ⟨k, val, none⟩ := by
          simp [updateItem, parsedOf, hl, hov]
        rw [h1]
        exact renderItem_norm k val none
      | some ls =>
        cases ls with
        | nil =>
          have h1 : updateItem cfg (parsedOf ⟨k, val, some []⟩)
              = .var ⟨k, val, some []⟩ := by
            simp [updateItem, parsedOf, hl, hov]
          rw [h1]
        | cons x xs =>
          have h1 : updateItem cfg (parsedOf ⟨k, val, some (x :: xs)⟩)
              = .var ⟨k, val, some (x :: xs)⟩ := by
            simp [updateItem, parsedOf, hl, hov]
          rw [h1]

theorem currentKeys_parsedOf (vars : List EnvVariable) :
    currentKeys (vars.map parsedOf) = vars.map EnvVariable.key := by
  rw [currentKeys, List.filterMap_map]
  induction vars with
  | nil => rfl
  | cons v rest ih => simp [parsedOf, ih]

theorem appended_parsedOf (cfg : EnvConfig) :
    appendedVariables cfg (cfg.vars.map parsedOf) = [] := by
  rw [appendedVariables, List.filter_eq_nil_iff]
  intro v hv
  rw [currentKeys_parsedOf]
  have hc : (cfg.vars.map EnvVariable.key).contains v.key = true :=
    (contains_iff _ _).mpr (List.mem_map_of_mem EnvVariable.key hv)
  rw [hc]
  decide

theorem needsQuoting_eq_contains (s : String) :
    needsQuoting s = (s.data.contains '"' || s.data.contains '\n') := by
  rw [Bool.eq_iff_iff]
  simp only [needsQuoting, List.any_eq_true, Bool.or_eq_true, beq_iff_eq]
  constructor
  · rintro ⟨x, hx, rfl | rfl⟩
    · exact Or.inl ((contains_iff _ _).mpr hx)
    · exact Or.inr ((contains_iff _ _).mpr hx)
  · rintro (h | h)
    · exact ⟨'"', (contains_iff _ _).mp h, Or.inl rfl⟩
    · exact ⟨'\n', (contains_iff _ _).mp h, Or.inr rfl⟩

theorem renderItem_eq_spec (item : ParsedEnvItem) :
    renderItem item = specRenderItem item := by
  cases item with
  | raw s => rfl
  | var v =>
    rw [renderItem_eq_join, lineListOf, valText, needsQuoting_eq_contains]
    rfl

theorem updateItem_no_vars (t : String) (b : Bool) (item : ParsedEnvItem) :
    updateItem ⟨t, b, []⟩ item = item := by
  cases item with
  | raw s => rfl
  | var v => rfl

theorem startsWithHash_not_blank {l : String} (h : startsWithHash l = true) :
    isBlank l = false := by
  obtain ⟨rest, hld⟩ := startsWithHash_data h
  rw [isBlank, hld]
  simp [isJsWhitespace]

theorem hash_prefix_decomp {l : String} (h : startsWithHash l = true) :
    "# " ++ dropChars 2 l = l := by
  obtain ⟨rest, hld⟩ := startsWithHash_data h
  apply string_ext
  simp [stringAppend_data, dropChars, hld]

theorem updatedEnv_getElem (cfg : EnvConfig) (env : List ParsedEnvItem) (i : ℕ)
    (x : ParsedEnvItem) (hx : env[i]? = some x) :
    (updatedEnv cfg env)[i]? = some (updateItem cfg x) := by
  have hlt : i < env.length := by
    by_contra hge
    rw [List.getElem?_eq_none (by omega)] at hx
    exact Option.noConfusion hx
  rw [updatedEnv, List.getElem?_append]
  rw [if_pos (by simpa using hlt), List.getElem?_map, hx]
  rfl

theorem singleLine_split {line : String} (hsafe : lineSafe line = true) :
    splitLines line = [line] := by
  show splitLinesAux line.data [] = [line]
  rw [splitLinesAux_safe line.data [] (fun c hc => lineSafe_mem hsafe hc)]
  simp

/-! ## The claims -/

/-- C3, as stated, is false on the code: for the `=`-free line `"FOO"` (a
bare valid identifier) the split yields key `""` and value `"FOO"` — not
key = whole line and value = empty string — so the line is treated as an
opaque passthrough item, not as a Variable Entry with empty value. -/
theorem c3_counterexample :
    isValidKey "FOO" = true ∧ '=' ∉ ("FOO" : String).data ∧
    lineKey "FOO" ≠ "FOO" ∧ lineKey "FOO" = "" ∧
    lineRawValue "FOO" ≠ "" ∧ lineRawValue "FOO" = "FOO" ∧
    parseEnvFileContent "FOO" ≠ [.var ⟨"FOO", "", none⟩] ∧
    parseEnvFileContent "FOO" = [.raw "FOO"] := by decide

/-- C3 (amended): for every input line containing no `=` character the
split yields key = the empty string and value = the whole line; the empty
key always fails the identifier pattern, so every `=`-free line — even a
bare valid identifier — is treated as non-variable (opaque passthrough). -/
theorem c3_no_equals (line : String) (h : '=' ∉ line.data)
    (hsafe : lineSafe line = true) :
    lineKey line = "" ∧ lineRawValue line = line ∧
    isValidKey (lineKey line) = false ∧
    (isBlank line = false → startsWithHash line = false →
      parseEnvFileContent line = [.raw line]) := by
  have hidx : jsIndexOfAux '=' line.data = none :=
    jsIndexOfAux_none (fun d hd he => h (he ▸ hd))
  have hk : lineKey line = "" := by
    apply string_ext
    rw [lineKey, jsIndexOf, hidx]
    rfl
  have hv : lineRawValue line = line := by
    apply string_ext
    rw [lineRawValue, jsIndexOf, hidx]
    rfl
  refine ⟨hk, hv, by rw [hk]; decide, ?_⟩
  intro hb hh
  simp only [parseEnvFileContent]
  rw [singleLine_split hsafe, List.foldl_cons, List.foldl_nil,
    parseLine_invalid hb hh (by rw [hk]; decide)]
  simp

theorem c3_witness :
    lineKey "FOO" = "" ∧ lineRawValue "FOO" = "FOO" ∧
    isValidKey (lineKey "FOO") = false ∧
    parseEnvFileContent "FOO" = [.raw "FOO"] := by
  obtain ⟨h1, h2, h3, h4⟩ := c3_no_equals "FOO" (by decide) (by decide)
  exact ⟨h1, h2, h3, h4 (by decide) (by decide)⟩

/-- C2, as stated, is false on the code: a bare non-string scalar value in
the mapping form of `variables` does not become its string representation;
the code reads `value.value`, which is `undefined` on a number, so 42
becomes `"undefined"`, not `"42"`. -/
theorem c2_counterexample :
    processRawConfigs
        [⟨some ".env", none, some (.record [("VAR", .scalar (.num 42))])⟩] "/cwd"
      = some ⟨"/cwd/.env", false, [⟨"VAR", "undefined", none⟩]⟩ ∧
    transformEnvVariables (.record [("VAR", .scalar (.num 42))])
      = [⟨"VAR", "undefined", none⟩] ∧
    ("undefined" : String) ≠ "42" := by decide

/-- C2 (amended): for every raw config whose `variables` field is a
key-to-value mapping, a key whose value is a bare non-string scalar (a
number or a boolean) normalizes to a Variable Entry whose value is the
string `"undefined"` (JavaScript `String(value.value)` where `.value` of
a scalar is `undefined`), with no description. -/
theorem c2_bare_scalar (entries : List (String × RawVarValue)) (i : ℕ)
    (key : String) (sc : JsScalar) (hsc : ∀ s, sc ≠ .str s)
    (hi : entries[i]? = some (key, .scalar sc)) :
    (transformEnvVariables (.record entries))[i]? = some ⟨key, "undefined", none⟩ := by
  cases sc with
  | str s => exact absurd rfl (hsc s)
  | num n =>
    simp only [transformEnvVariables, List.getElem?_map, hi, Option.map_some']
  | bool b =>
    simp only [transformEnvVariables, List.getElem?_map, hi, Option.map_some']

theorem c2_witness :
    (transformEnvVariables (.record [("VAR", .scalar (.num 42))]))[0]?
      = some ⟨"VAR", "undefined", none⟩ :=
  c2_bare_scalar [("VAR", .scalar (.num 42))] 0 "VAR" (.num 42)
    (fun s h => JsScalar.noConfusion h) (by decide)

/-- C10: reconciliation preserves every current item's position, raw
passthrough items are returned unchanged, and a variable entry keeps its
key and value — only the description may change. -/
theorem c10_frame (cfg : EnvConfig) (env : List ParsedEnvItem) (i : ℕ) :
    (∀ s, env[i]? = some (.raw s) → (updatedEnv cfg env)[i]? = some (.raw s))
    ∧ (∀ v, env[i]? = some (.var v) →
        ∃ d, (updatedEnv cfg env)[i]? = some (.var ⟨v.key, v.value, d⟩)) := by
  constructor
  · intro s hs
    rw [updatedEnv_getElem cfg env i _ hs]
    rfl
  · intro v hv
    have hshape : ∃ d, updateItem cfg (.var v) = .var ⟨v.key, v.value, d⟩ := by
      simp only [updateItem]
      cases mapLookup cfg.vars v.key with
      | none => exact ⟨v.description, rfl⟩
      | some cv =>
        dsimp only
        split
        · exact ⟨_, rfl⟩
        · exact ⟨v.description, rfl⟩
    obtain ⟨d, hd⟩ := hshape
    exact ⟨d, by rw [updatedEnv_getElem cfg env i _ hv, hd]⟩

theorem c10_witness :
    (updatedEnv ⟨".env", true, [⟨"A", "1", some ["d"]⟩]⟩
        [.raw "some other line", .var ⟨"A", "0", none⟩])[0]?
      = some (.raw "some other line")
    ∧ ∃ d, (updatedEnv ⟨".env", true, [⟨"A", "1", some ["d"]⟩]⟩
        [.raw "some other line", .var ⟨"A", "0", none⟩])[1]?
      = some (.var ⟨"A", "0", d⟩) :=
  ⟨(c10_frame _ _ 0).1 "some other line" (by decide),
   (c10_frame _ _ 1).2 ⟨"A", "0", none⟩ (by decide)⟩

/-- C4: for a variable entry in the current list whose key has a matching
config variable, when `overrideDescription` is true and the config
variable's description is the non-empty line list `d`, the resulting
description keeps the current description's leading
`(current length − incoming length)` lines followed by all incoming lines
when the current description is strictly longer, and is exactly `d`
otherwise. -/
theorem c4_override_tail_merge (cfg : EnvConfig) (env : List ParsedEnvItem)
    (i : ℕ) (v cv : EnvVariable) (d : List String)
    (hi : env[i]? = some (.var v))
    (hcv : mapLookup cfg.vars v.key = some cv)
    (hov : cfg.overrideDescription = true)
    (hd : cv.description = some d) (hdne : d ≠ []) :
    (updatedEnv cfg env)[i]? = some (.var ⟨v.key, v.value,
      some (if d.length < (v.description.getD []).length then
        (v.description.getD []).take ((v.description.getD []).length - d.length) ++ d
      else d)⟩) := by
  have hup : updateItem cfg (.var v) = .var ⟨v.key, v.value,
      some (if d.length < (v.description.getD []).length then
        (v.description.getD []).take ((v.description.getD []).length - d.length) ++ d
      else d)⟩ := by
    simp [updateItem, hcv, hov, hd]
  rw [updatedEnv_getElem cfg env i _ hi, hup]

theorem c4_witness :
    (updatedEnv ⟨".env", true, [⟨"A", "1", some ["x"]⟩]⟩
        [.var ⟨"A", "0", some ["p", "q"]⟩])[0]?
      = some (.var ⟨"A", "0", some ["p", "x"]⟩) := by
  have h := c4_override_tail_merge ⟨".env", true, [⟨"A", "1", some ["x"]⟩]⟩
    [.var ⟨"A", "0", some ["p", "q"]⟩] 0 ⟨"A", "0", some ["p", "q"]⟩
    ⟨"A", "1", some ["x"]⟩ ["x"] (by decide) (by decide) rfl rfl (by decide)
  exact h.trans (by decide)

/-- C9: for a valid variable line whose raw value is quote-wrapped with
length at least 2, the parser attempts a JSON-string unescape of the
value: on success the decoded string is the entry's value, on failure the
raw quoted text is kept verbatim; either way parsing yields an entry and
never fails. -/
theorem c9_quoted_value (line : String) (hsafe : lineSafe line = true)
    (hk : isValidKey (lineKey line) = true)
    (hq : looksQuoted (lineRawValue line) = true) :
    parseEnvFileContent line
      = [.var ⟨lineKey line,
          (match jsonParseString (lineRawValue line) with
           | some decoded => decoded
           | none => lineRawValue line), none⟩] := by
  simp only [parseEnvFileContent]
  rw [singleLine_split hsafe, List.foldl_cons, List.foldl_nil, parseLine_valid hk]
  simp only [decodeValue, if_pos hq]
  simp

theorem c9_witness :
    parseEnvFileContent "GOOD=\"a b\"" = [.var ⟨"GOOD", "a b", none⟩]
    ∧ parseEnvFileContent "BAD=\"a\" b\"" = [.var ⟨"BAD", "\"a\" b\"", none⟩] := by
  constructor
  · exact (c9_quoted_value "GOOD=\"a b\"" (by decide) (by decide) (by decide)).trans
      (by decide)
  · exact (c9_quoted_value "BAD=\"a\" b\"" (by decide) (by decide) (by decide)).trans
      (by decide)

/-- C6: serialization renders every item as the spec words it — one
`# <line>` line per description line followed by `<key>=<value>`, where
the value is JSON-quoted exactly when it contains a double quote or a
newline — joined with `"\n"` and a single trailing newline appended; an
empty variable list against an empty current list yields just `"\n"`. -/
theorem c6_serialization (cfg : EnvConfig) (env : List ParsedEnvItem) :
    generateEnvContent cfg env
      = joinWithNewline ((updatedEnv cfg env).map specRenderItem) ++ "\n"
    ∧ (cfg.vars = [] → env = [] → generateEnvContent cfg env = "\n") := by
  constructor
  · rw [generateEnvContent,
      List.map_congr_left (fun item _ => renderItem_eq_spec item)]
  · intro hv he
    subst he
    rw [generateEnvContent_nil, hv]
    rfl

theorem c6_witness :
    generateEnvContent ⟨".env", false, []⟩ [] = "\n" :=
  (c6_serialization ⟨".env", false, []⟩ []).2 rfl rfl

/-- C5: a block of `# `-prefixed lines followed (ignoring blank lines) by
a valid variable line yields one Variable Entry whose description is
exactly those lines with the two-character prefix removed; followed by an
invalid line it yields the same lines as opaque `# `-prefixed items plus
the invalid line verbatim, in original order; and a trailing block at end
of input is flushed the same way. -/
theorem c5_comment_association (ls mid : List String) (next : String)
    (hls : ∀ l ∈ ls, startsWithHash l = true ∧ lineSafe l = true)
    (hmid : ∀ l ∈ mid, isBlank l = true ∧ lineSafe l = true)
    (hnext : lineSafe next = true) :
    (isValidKey (lineKey next) = true → ls ≠ [] →
      parseEnvFileContent (joinWithNewline (ls ++ mid ++ [next]))
        = [.var ⟨lineKey next, decodeValue (lineRawValue next),
            some (ls.map (dropChars 2))⟩])
    ∧ (isBlank next = false → startsWithHash next = false →
        isValidKey (lineKey next) = false →
        parseEnvFileContent (joinWithNewline (ls ++ mid ++ [next]))
          = ls.map .raw ++ [.raw next])
    ∧ parseEnvFileContent (joinWithNewline ls) = ls.map ParsedEnvItem.raw := by
  have hcomments : ∀ l ∈ ls ++ mid, startsWithHash l = true ∨ isBlank l = true := by
    intro l hl
    rcases List.mem_append.mp hl with h | h
    · exact Or.inl (hls l h).1
    · exact Or.inr (hmid l h).1
  have hfilter : ((ls ++ mid).filter (fun l => !isBlank l)).map (dropChars 2)
      = ls.map (dropChars 2) := by
    rw [List.filter_append]
    have h1 : ls.filter (fun l => !isBlank l) = ls :=
      List.filter_eq_self.mpr
        (fun l hl => by rw [startsWithHash_not_blank (hls l hl).1]; rfl)
    have h2 : mid.filter (fun l => !isBlank l) = [] :=
      List.filter_eq_nil_iff.mpr (fun l hl => by rw [(hmid l hl).1]; simp)
    rw [h1, h2, List.append_nil]
  have hflush : (ls.map (dropChars 2)).map (fun c => ParsedEnvItem.raw ("# " ++ c))
      = ls.map .raw := by
    rw [List.map_map]
    exact List.map_congr_left (fun l hl => by
      have hpre := hash_prefix_decomp (hls l hl).1
      simp [Function.comp, hpre])
  have hsafeall : ∀ l ∈ ls ++ mid ++ [next], lineSafe l = true := by
    intro l hl
    rcases List.mem_append.mp hl with h | h
    · rcases List.mem_append.mp h with h2 | h2
      · exact (hls l h2).2
      · exact (hmid l h2).2
    · simp only [List.mem_singleton] at h
      subst h
      exact hnext
  have hsplit : splitLines (joinWithNewline (ls ++ mid ++ [next]))
      = ls ++ mid ++ [next] := splitLines_join _ (by simp) hsafeall
  refine ⟨?_, ?_, ?_⟩
  · intro hk h0
    simp only [parseEnvFileContent]
    rw [hsplit, List.foldl_append,
      foldl_parseLine_comments (ls ++ mid) [] [] hcomments,
      List.foldl_cons, List.foldl_nil, parseLine_valid hk]
    simp only [List.nil_append]
    rw [hfilter]
    have hbodies : (ls.map (dropChars 2)).isEmpty = false := by
      cases ls with
      | nil => exact absurd rfl h0
      | cons a as => rfl
    simp [hbodies]
  · intro hb hh hk
    simp only [parseEnvFileContent]
    rw [hsplit, List.foldl_append,
      foldl_parseLine_comments (ls ++ mid) [] [] hcomments,
      List.foldl_cons, List.foldl_nil, parseLine_invalid hb hh hk]
    simp only [List.nil_append]
    rw [hfilter, hflush]
    simp
  · by_cases h0 : ls = []
    · subst h0
      decide
    · simp only [parseEnvFileContent]
      rw [splitLines_join ls h0 (fun l hl => (hls l hl).2),
        foldl_parseLine_comments ls [] [] (fun l hl => Or.inl (hls l hl).1)]
      have h1 : ls.filter (fun l => !isBlank l) = ls :=
        List.filter_eq_self.mpr
          (fun l hl => by rw [startsWithHash_not_blank (hls l hl).1]; rfl)
      simp only [List.nil_append]
      rw [h1, hflush]

theorem c5_witness :
    parseEnvFileContent (joinWithNewline (["# a", "# b"] ++ ["  "] ++ ["K=1"]))
      = [.var ⟨"K", "1", some ["a", "b"]⟩]
    ∧ parseEnvFileContent (joinWithNewline (["# a"] ++ [] ++ ["bad line"]))
      = [.raw "# a", .raw "bad line"]
    ∧ parseEnvFileContent (joinWithNewline ["# a", "# b"])
      = [.raw "# a", .raw "# b"] := by
  refine ⟨?_, ?_, ?_⟩
  · exact ((c5_comment_association ["# a", "# b"] ["  "] "K=1" (by decide)
      (by decide) (by decide)).1 (by decide) (by decide)).trans (by decide)
  · exact ((c5_comment_association ["# a"] [] "bad line" (by decide)
      (by decide) (by decide)).2.1 (by decide) (by decide) (by decide)).trans
      (by decide)
  · exact ((c5_comment_association ["# a", "# b"] [] "x" (by decide)
      (by decide) (by decide)).2.2).trans (by decide)

/-- C8: normalization returns an absent result exactly when the config
list is empty, the merged target is missing or falsy (the empty string),
or the merged variables mapping is missing; otherwise the produced config
has the merged target resolved against the base directory and the merged
`overrideDescription` flag defaulting to false when absent. -/
theorem c8_processRawConfigs (configs : List RawEnvConfig) (cwd : String) :
    (processRawConfigs configs cwd = none ↔
      configs = [] ∨ (mergeConfigs configs).target = none
        ∨ (mergeConfigs configs).target = some ""
        ∨ (mergeConfigs configs).vars = none)
    ∧ (∀ c, processRawConfigs configs cwd = some c →
        (∃ t, (mergeConfigs configs).target = some t ∧ t ≠ ""
          ∧ c.target = pathResolve cwd t)
        ∧ c.overrideDescription = (mergeConfigs configs).overrideDescription.getD false
        ∧ ∃ vs, (mergeConfigs configs).vars = some vs
            ∧ c.vars = transformEnvVariables (.record vs)) := by
  have hunfold : processRawConfigs configs cwd
      = if configs.isEmpty then none else
          (match (mergeConfigs configs).target with
           | none => none
           | some t =>
             if t = "" then none
             else
               match (mergeConfigs configs).vars with
               | none => none
               | some vs =>
                 some { target := pathResolve cwd t
                        overrideDescription :=
                          (mergeConfigs configs).overrideDescription.getD false
                        vars := transformEnvVariables (.record vs) }) := rfl
  by_cases hc : configs = []
  · subst hc
    refine ⟨⟨fun h => Or.inl rfl, fun h => rfl⟩, ?_⟩
    intro c h
    exact Option.noConfusion ((rfl : processRawConfigs [] cwd = none).symm.trans h)
  · have hce : configs.isEmpty = false := by
      cases configs with
      | nil => exact absurd rfl hc
      | cons a as => rfl
    rw [hunfold, hce]
    simp only [Bool.false_eq_true, if_false]
    split
    · rename_i ht
      refine ⟨⟨fun h => Or.inr (Or.inl ht), fun h => rfl⟩, ?_⟩
      intro c h
      exact Option.noConfusion h
    · rename_i t ht
      by_cases hte : t = ""
      · rw [if_pos hte]
        subst hte
        refine ⟨⟨fun h => Or.inr (Or.inr (Or.inl ht)), fun h => rfl⟩, ?_⟩
        intro c h
        exact Option.noConfusion h
      · rw [if_neg hte]
        split
        · rename_i hv
          refine ⟨⟨fun h => Or.inr (Or.inr (Or.inr hv)), fun h => rfl⟩, ?_⟩
          intro c h
          exact Option.noConfusion h
        · rename_i vs hv
          constructor
          · constructor
            · intro h
              exact Option.noConfusion h
            · intro h
              rcases h with h | h | h | h
              · exact absurd h hc
              · rw [ht] at h
                exact Option.noConfusion h
              · rw [ht] at h
                exact absurd (Option.some.inj h) hte
              · rw [hv] at h
                exact Option.noConfusion h
          · intro c h
            obtain rfl := Option.some.inj h
            exact ⟨⟨t, ht, hte, rfl⟩, rfl, vs, hv, rfl⟩

theorem c8_witness :
    (processRawConfigs [] "/p" = none)
    ∧ (processRawConfigs
        [⟨some ".env", some true, some (.record [("A", .scalar (.str "1"))])⟩] "/p"
        = some ⟨"/p/.env", true, [⟨"A", "1", none⟩]⟩ →
      (⟨"/p/.env", true, [⟨"A", "1", none⟩]⟩ : EnvConfig).target = pathResolve "/p" ".env") := by
  constructor
  · exact (c8_processRawConfigs [] "/p").1.mpr (Or.inl rfl)
  · intro h
    obtain ⟨⟨t, ht, hte, htg⟩, -, -⟩ := (c8_processRawConfigs _ "/p").2 _ h
    have ht2 : some t = some ".env" := ht.symm.trans (by decide)
    rw [htg, Option.some.inj ht2]

theorem renderVar_plain (k val : String) (hv : needsQuoting val = false) :
    renderItem (.var ⟨k, val, none⟩) = k ++ "=" ++ val := by
  simp only [renderItem, valText, hv, Option.getD, List.map_nil, joinWithNewline]
  apply string_ext
  simp [stringAppend_data]

/-- C1, as stated, is false on the code: `A="b"` is a valid `KEY=value`
line, but its parse decodes the quoted value to `b` and serialization
re-emits it unquoted, so the round trip produces `A=b`, not `A="b"`. -/
theorem c1_counterexample :
    isValidKey (lineKey "A=\"b\"") = true ∧
    parseEnvFileContent "A=\"b\"" = [.var ⟨"A", "b", none⟩] ∧
    generateEnvContent ⟨".env", false, []⟩ (parseEnvFileContent "A=\"b\"")
      = "A=b\n" ∧
    ("A=b\n" : String) ≠ "A=\"b\"" ++ "\n" ∧ ("A=b\n" : String) ≠ "A=\"b\"" := by
  decide

/-- C1 (amended): for every list of valid `KEY=value` lines whose text
contains no double quote character (and no raw line breaks inside a
line), serializing the result of parsing their join — reconciling an
empty variable list against the parse — reproduces the original text up
to the single trailing newline. -/
theorem c1_roundtrip (t : String) (b : Bool) (lines : List String)
    (h : ∀ l ∈ lines, isValidKey (lineKey l) = true ∧ '"' ∉ l.data
      ∧ lineSafe l = true) :
    generateEnvContent ⟨t, b, []⟩ (parseEnvFileContent (joinWithNewline lines))
      = joinWithNewline lines ++ "\n" := by
  by_cases h0 : lines = []
  · subst h0
    rfl
  · have hparse : parseEnvFileContent (joinWithNewline lines)
        = lines.map (fun l => .var ⟨lineKey l, decodeValue (lineRawValue l), none⟩) := by
      simp only [parseEnvFileContent]
      rw [splitLines_join lines h0 (fun l hl => (h l hl).2.2),
        foldl_parseLine_vars lines [] (fun l hl => (h l hl).1)]
      simp
    have hupd : ∀ item, updateItem ⟨t, b, []⟩ item = item := updateItem_no_vars t b
    have hrender : ∀ l ∈ lines,
        renderItem (.var ⟨lineKey l, decodeValue (lineRawValue l), none⟩) = l := by
      intro l hl
      obtain ⟨hk, hq, hs⟩ := h l hl
      have hq2 : '"' ∉ (lineRawValue l).data := fun hm => hq (List.drop_subset _ _ hm)
      have hdec : decodeValue (lineRawValue l) = lineRawValue l := decodeValue_no_quote hq2
      have hnq : needsQuoting (lineRawValue l) = false := by
        rw [needsQuoting, List.any_eq_false]
        intro c hc
        have hc2 : c ∈ l.data := List.drop_subset _ _ hc
        have h1 : c ≠ '"' := fun he => hq2 (he ▸ hc)
        have h2 : c ≠ '\n' := (lineSafe_mem hs hc2).1
        simp [h1, h2]
      rw [hdec, renderVar_plain _ _ hnq]
      exact (line_decomp hk).symm
    rw [hparse]
    have hsuf : ((lines.map (fun l => ParsedEnvItem.var
          ⟨lineKey l, decodeValue (lineRawValue l), none⟩)).map
            (updateItem ⟨t, b, []⟩)).map renderItem = lines := by
      rw [List.map_map, List.map_map]
      calc lines.map _
          = lines.map id := List.map_congr_left (fun l hl => by
            show renderItem (updateItem ⟨t, b, []⟩ (ParsedEnvItem.var
              ⟨lineKey l, decodeValue (lineRawValue l), none⟩)) = id l
            rw [hupd, hrender l hl]
            rfl)
        _ = lines := List.map_id lines
    rw [generateEnvContent, updatedEnv,
      show appendedVariables ⟨t, b, []⟩ (lines.map fun l => ParsedEnvItem.var
        ⟨lineKey l, decodeValue (lineRawValue l), none⟩) = [] from rfl,
      show (([] : List EnvVariable).map ParsedEnvItem.var) = [] from rfl,
      List.append_nil, hsuf]

theorem c1_witness :
    generateEnvContent ⟨".env", false, []⟩
        (parseEnvFileContent (joinWithNewline ["A=1", "B_2=hello world"]))
      = joinWithNewline ["A=1", "B_2=hello world"] ++ "\n" :=
  c1_roundtrip ".env" false ["A=1", "B_2=hello world"] (by decide)

/-- C7, as stated, is false on the code: for a config with
`overrideDescription` true and a description line containing an embedded
newline, the first pass writes the description over two physical lines,
the parse of that text turns them into opaque lines, and the second pass
prepends the description again, so the text grows instead of staying
fixed.  The claim quantifies over every `EnvConfig`, whose interface
(`description?: string[]`) places no constraint on the entries, and the
exported `transformEnvVariables` itself returns a list-form
`EnvVariable` entry's `string[]` description unsplit (only `string`
descriptions are split on a newline), so the module's own API builds
such a config.  The remaining conjuncts show that the other hypotheses
of the amended theorem are each forced: a variable with an invalid key
is re-parsed as an opaque line and appended a second time; with a
duplicated key the last-wins `Map` rewrites the first occurrence's
description on the second pass; and a carriage return in a value, which
quoting does not protect (the test is on a double quote or a newline),
is swallowed by the CR-LF-tolerant line split. -/
theorem c7_counterexample :
    (generateEnvContent ⟨".env", true, [⟨"K", "v", some ["a\nb"]⟩]⟩ []
      = "# a\nb\nK=v\n" ∧
     generateEnvContent ⟨".env", true, [⟨"K", "v", some ["a\nb"]⟩]⟩
        (parseEnvFileContent
          (generateEnvContent ⟨".env", true, [⟨"K", "v", some ["a\nb"]⟩]⟩ []))
      = "# a\nb\n# a\nb\nK=v\n" ∧
     ("# a\nb\n# a\nb\nK=v\n" : String) ≠ "# a\nb\nK=v\n") ∧
    generateEnvContent ⟨".env", false, [⟨"1K", "v", none⟩]⟩
        (parseEnvFileContent
          (generateEnvContent ⟨".env", false, [⟨"1K", "v", none⟩]⟩ []))
      ≠ generateEnvContent ⟨".env", false, [⟨"1K", "v", none⟩]⟩ [] ∧
    generateEnvContent
        ⟨".env", true, [⟨"K", "1", some ["d1"]⟩, ⟨"K", "2", some ["d2"]⟩]⟩
        (parseEnvFileContent (generateEnvContent
          ⟨".env", true, [⟨"K", "1", some ["d1"]⟩, ⟨"K", "2", some ["d2"]⟩]⟩ []))
      ≠ generateEnvContent
          ⟨".env", true, [⟨"K", "1", some ["d1"]⟩, ⟨"K", "2", some ["d2"]⟩]⟩ [] ∧
    generateEnvContent ⟨".env", false, [⟨"K", "v\r", none⟩]⟩
        (parseEnvFileContent
          (generateEnvContent ⟨".env", false, [⟨"K", "v\r", none⟩]⟩ []))
      ≠ generateEnvContent ⟨".env", false, [⟨"K", "v\r", none⟩]⟩ [] := by decide

/-- C7 (amended): for every `EnvConfig` whose variable keys are valid
identifiers and pairwise distinct, whose values contain no carriage
return, and whose description lines contain no raw line break,
reconciling the config against the parse of the text produced by
reconciling it against an empty current-item list reproduces that text
exactly (no duplicate keys, no drift).  Each of the four hypotheses is
forced: dropping any one of them admits a drift counterexample. -/
theorem c7_idempotent (cfg : EnvConfig)
    (hk : ∀ v ∈ cfg.vars, isValidKey v.key = true)
    (hnd : (cfg.vars.map EnvVariable.key).Nodup)
    (hval : ∀ v ∈ cfg.vars, '\r' ∉ v.value.data)
    (hdesc : ∀ v ∈ cfg.vars, ∀ d ∈ v.description.getD [], lineSafe d = true) :
    generateEnvContent cfg (parseEnvFileContent (generateEnvContent cfg []))
      = generateEnvContent cfg [] := by
  have hsafe : ∀ v ∈ cfg.vars, ∀ l ∈ lineListOf v, lineSafe l = true :=
    fun v hv => lineListOf_safe (hk v hv) (hval v hv) (hdesc v hv)
  rw [parse_generate_empty cfg hk hsafe]
  have hsuf : ((cfg.vars.map parsedOf).map (updateItem cfg)).map renderItem
      = cfg.vars.map (fun v => renderItem (.var v)) := by
    rw [List.map_map, List.map_map]
    exact List.map_congr_left (fun v hv => by
      show renderItem (updateItem cfg (parsedOf v)) = renderItem (.var v)
      exact renderItem_update cfg v (mapLookup_self hv hnd))
  rw [generateEnvContent, updatedEnv, appended_parsedOf,
    show (([] : List EnvVariable).map ParsedEnvItem.var) = [] from rfl,
    List.append_nil, hsuf, generateEnvContent_nil]

theorem c7_witness :
    generateEnvContent ⟨".env", true, [⟨"A", "x\"y", some ["da"]⟩, ⟨"B", "2", none⟩]⟩
        (parseEnvFileContent (generateEnvContent
          ⟨".env", true, [⟨"A", "x\"y", some ["da"]⟩, ⟨"B", "2", none⟩]⟩ []))
      = generateEnvContent
          ⟨".env", true, [⟨"A", "x\"y", some ["da"]⟩, ⟨"B", "2", none⟩]⟩ [] :=
  c7_idempotent ⟨".env", true, [⟨"A", "x\"y", some ["da"]⟩, ⟨"B", "2", none⟩]⟩
    (by decide) (by decide) (by decide) (by decide)

end CreatePresetEnv
